import Mathlib

/-!
Shallow embedding of the fco-backup-fetcher engine (src/main.rs) and proofs
about its reconciliation, retry, ledger, slug and fetch logic.

Modelling conventions:
* Rust `String`/`&str` values are modelled as `List Char`; single-character
  splits (Rust `split("/")`, `split("\n")`) are modelled by `splitChar`.
* Filesystem paths are modelled at the path-component level
  (`List (List Char)`); `PathBuf::join` is `pathJoin`, which records that
  joining the empty segment adds no component (a trailing separator only,
  which resolves to the same directory).
* Feed entries (the atom collaborator, §6 of the spec) are modelled with an
  already-parsed `updated` instant (`Int`); the engine only compares these
  with `<`.  The ledger timestamp (written and re-parsed by the engine
  itself) is modelled structurally by `DateTime` together with the exact
  `%FT%TZ` formatting and an RFC3339 parser restricted to the UTC,
  no-fraction subset the engine writes.
* Fallible Rust functions returning `Result<_, String>` become
  `Except String _`.  The `.unwrap()` on the HTML link in `poll_atom`
  (src/main.rs line 139) is modelled as an explicit error branch.
* Effectful operations (git commands, filesystem writes, browser fetches)
  are reified as a trace of `GitOp` values in the order the source issues
  them.
-/

instance {E V : Type} [DecidableEq E] [DecidableEq V] : DecidableEq (Except E V) := fun a b =>
  match a, b with
  | .ok x, .ok y => if h : x = y then .isTrue (by simp [h]) else .isFalse (by simp [h])
  | .error x, .error y => if h : x = y then .isTrue (by simp [h]) else .isFalse (by simp [h])
  | .ok _, .error _ => .isFalse (by simp)
  | .error _, .ok _ => .isFalse (by simp)

/-- Rust `str::split` on a single-character pattern (src/main.rs lines 380,
427 use `split("\n")` and `split("/")`): splits `l` at every occurrence of
`sep`; always returns at least one (possibly empty) chunk, like Rust. -/
def splitChar (sep : Char) : List Char → List (List Char)
  | [] => [[]]
  | c :: rest =>
    if c = sep then [] :: splitChar sep rest
    else
      match splitChar sep rest with
      | [] => [[c]]
      | l :: ls => (c :: l) :: ls

/-- Model of `std::path::is_separator` on Unix (src/main.rs line 432):
only `'/'` is a path separator. -/
def isSeparator (c : Char) : Bool := c = '/'

/-- The `self.url.split("/").last().unwrap()` step of `Country::dir_name`
(src/main.rs line 427).  The `unwrap` is safe because `splitChar` never
returns `[]`; `getD` with default `[]` is only a formality. -/
def lastSegment (url : List Char) : List Char :=
  ((splitChar '/' url).getLast?).getD []

/-- The filesystem-safety check of `Country::dir_name` (src/main.rs lines
428-436): reject `"."` and `".."`, reject any segment containing a platform
path separator, otherwise return the segment unchanged. -/
def validateSegment (dn : List Char) : Except String (List Char) :=
  if dn = ".".toList ∨ dn = "..".toList then
    .error ("Bad path: " ++ String.mk dn)
  else if dn.any isSeparator then
    .error ("Bad path: " ++ String.mk dn)
  else
    .ok dn

/-- The `Country` struct (src/main.rs lines 420-423). -/
structure Country where
  name : List Char
  url : List Char
deriving DecidableEq

/-- `Country::dir_name` (src/main.rs lines 426-437): derive the slug from
the last `/`-separated segment of the source URL and validate it. -/
def Country.dirName (c : Country) : Except String (List Char) :=
  validateSegment (lastSegment c.url)

/-- Model of `PathBuf::join` at the path-component level (used at
src/main.rs lines 143, 401).  Joining an empty segment appends only a
trailing separator, which changes no path component, so the result
resolves to the same directory. -/
def pathJoin (root : List (List Char)) (seg : List Char) : List (List Char) :=
  if seg = [] then root else root ++ [seg]

/-- Observable outcome of one `retry` run (src/main.rs lines 589-608):
how many times the action `f` was invoked, how many times the `on_error`
recovery hook was invoked, and the final result.  The error case carries
the accumulated `errors` vector that the source formats into
`"Giving up after 3 attempts: ..."`. -/
structure RetryTrace (E V : Type) where
  attempts : Nat
  recoveries : Nat
  result : Except (List E) V
deriving Repr

/-- `retry` (src/main.rs lines 589-608).  The source loops `for _ in 0..2`
calling `f()`, running `on_error()` and pushing the error after each
failure, then makes one final call to `f()` outside the loop (without
running `on_error` after a final failure).  The action is modelled as a
function of the invocation index, since each call of the effectful closure
may give a different result. -/
def retry {E V : Type} (f : Nat → Except E V) : RetryTrace E V :=
  match f 0 with
  | .ok v => ⟨1, 0, .ok v⟩
  | .error e1 =>
    match f 1 with
    | .ok v => ⟨2, 1, .ok v⟩
    | .error e2 =>
      match f 2 with
      | .ok v => ⟨3, 2, .ok v⟩
      | .error e3 => ⟨3, 2, .error [e1, e2, e3]⟩

/-- A typed link of an atom entry (the `atom_syndication::Link` data the
engine reads: `href()` and `mime_type()`). -/
structure Link where
  href : List Char
  mimeType : Option (List Char)
deriving DecidableEq

/-- An atom feed entry as the engine consumes it: `title()`, `links()`,
`updated()` (modelled as an already-parsed instant) and `summary()`. -/
structure Entry where
  title : List Char
  links : List Link
  updated : Int
  summary : Option (List Char)
deriving DecidableEq

/-- The mime type the engine filters links by. -/
def htmlMime : List Char := "text/html".toList

/-- `entry.links().iter().find(|link| link.mime_type() == Some("text/html"))
.map(|link| link.href())` (src/main.rs lines 136-140 and 290-294). -/
def htmlEntryLink (e : Entry) : Option (List Char) :=
  (e.links.find? (fun l => l.mimeType == some htmlMime)).map Link.href

/-- `get_new_atom_entries` (src/main.rs lines 155-202) after the feed has
been fetched and each entry's `updated` parsed: reverse the feed (assumed
newest-first) to oldest-first, keep entries strictly newer than the
recovered last-known timestamp, and report whether every feed entry
qualified (`feed.entries().len() == len`, line 201). -/
def getNewAtomEntries (feed : List Entry) (ts : Int) : List Entry × Bool :=
  let newEntries := feed.reverse.filter (fun e => decide (ts < e.updated))
  (newEntries, feed.length == newEntries.length)

/-- `has_duplicates` (src/main.rs lines 286-298): collect the hrefs of the
HTML-typed link of each entry that has one (entries without one contribute
nothing, per `filter_map`) into a set, and report whether the set is
smaller than the entry list.  The `HashSet` is modelled by `dedup`. -/
def hasDuplicates (entries : List Entry) : Bool :=
  let urls := (entries.filterMap htmlEntryLink).dedup
  decide (urls.length < entries.length)

/-- The three-way branch of `poll_atom` (src/main.rs lines 116-131):
return with no work, take the full re-fetch path, or process the new
entries incrementally. -/
inductive Decision where
  | noWork : Decision
  | fullResync : Decision
  | incremental : List Entry → Decision
deriving DecidableEq

/-- The branch structure of `poll_atom` (src/main.rs lines 116-131):
`if new_entries.len() == 0 { return Ok(()) }` then
`if all_are_new || has_duplicates(&new_entries) { return fetch_all(...) }`
else fall through to the incremental loop.  The source does not attach a
reason string to the branches; the single catch-up commit message covers
both full-resync triggers. -/
def pollDecision (feed : List Entry) (ts : Int) : Decision :=
  let r := getNewAtomEntries feed ts
  if r.1.length = 0 then .noWork
  else if r.2 || hasDuplicates r.1 then .fullResync
  else .incremental r.1

/-- A calendar timestamp at second precision in UTC, as written by
`Utc::now().format("%FT%TZ")` (src/main.rs line 324). -/
structure DateTime where
  year : Nat
  month : Nat
  day : Nat
  hour : Nat
  minute : Nat
  second : Nat
deriving DecidableEq, Repr

/-- Gregorian leap-year rule, as chrono's calendar validates it. -/
def isLeapYear (y : Nat) : Bool :=
  y % 4 == 0 && (y % 100 != 0 || y % 400 == 0)

/-- Days in a month of the proleptic Gregorian calendar. -/
def daysInMonth (y m : Nat) : Nat :=
  if m = 2 then (if isLeapYear y then 29 else 28)
  else if m = 4 ∨ m = 6 ∨ m = 9 ∨ m = 11 then 30
  else 31

/-- A `DateTime` that chrono can represent and that `%FT%TZ` formats with
a four-digit year: calendar-valid fields with `year ≤ 9999`. -/
def ValidDateTime (t : DateTime) : Prop :=
  t.year ≤ 9999 ∧ 1 ≤ t.month ∧ t.month ≤ 12 ∧ 1 ≤ t.day ∧
    t.day ≤ daysInMonth t.year t.month ∧ t.hour ≤ 23 ∧ t.minute ≤ 59 ∧
    t.second ≤ 59

instance (t : DateTime) : Decidable (ValidDateTime t) := by
  unfold ValidDateTime; exact inferInstance

/-- Decimal digit to character, for zero-padded chrono formatting. -/
def decDigit : Nat → Char
  | 0 => '0' | 1 => '1' | 2 => '2' | 3 => '3' | 4 => '4'
  | 5 => '5' | 6 => '6' | 7 => '7' | 8 => '8' | 9 => '9'
  | _ => '*'

/-- Character to decimal digit, as an RFC3339 parser reads it. -/
def parseDigit (c : Char) : Option Nat :=
  if 48 ≤ c.toNat ∧ c.toNat ≤ 57 then some (c.toNat - 48) else none

/-- Read a two-digit zero-padded decimal field. -/
def parse2 (a b : Char) : Option Nat :=
  match parseDigit a, parseDigit b with
  | some x, some y => some (x * 10 + y)
  | _, _ => none

/-- Read a four-digit zero-padded decimal field. -/
def parse4 (a b c d : Char) : Option Nat :=
  match parseDigit a, parseDigit b, parseDigit c, parseDigit d with
  | some w, some x, some y, some z => some (((w * 10 + x) * 10 + y) * 10 + z)
  | _, _, _, _ => none

/-- Two-digit zero-padded decimal rendering (chrono `%m`, `%d`, `%H`,
`%M`, `%S`). -/
def pad2 (n : Nat) : List Char := [decDigit (n / 10), decDigit (n % 10)]

/-- Four-digit zero-padded decimal rendering (chrono `%Y` for years up to
9999). -/
def pad4 (n : Nat) : List Char :=
  [decDigit (n / 1000), decDigit (n / 100 % 10), decDigit (n / 10 % 10),
    decDigit (n % 10)]

/-- `Utc::now().format("%FT%TZ")` (src/main.rs line 324): the fixed
sortable `YYYY-MM-DDTHH:MM:SSZ` rendering of a UTC timestamp at second
precision. -/
def formatSortable (t : DateTime) : List Char :=
  pad4 t.year ++ '-' :: (pad2 t.month ++ '-' :: (pad2 t.day ++
    'T' :: (pad2 t.hour ++ ':' :: (pad2 t.minute ++ ':' :: (pad2 t.second ++ ['Z'])))))

/-- `chrono::DateTime::parse_from_rfc3339` (src/main.rs line 383)
restricted to the UTC, no-fractional-second subset the engine itself
writes: exactly `YYYY-MM-DDTHH:MM:SSZ` with calendar-valid fields.  Any
other shape is rejected (`none`), matching chrono's failure on
non-RFC3339 lines. -/
def parseRfc3339 (s : List Char) : Option DateTime :=
  match s with
  | [y1, y2, y3, y4, a1, mo1, mo2, a2, d1, d2, a3, h1, h2, a4, mi1, mi2, a5, se1, se2, a6] =>
    if a1 = '-' ∧ a2 = '-' ∧ a3 = 'T' ∧ a4 = ':' ∧ a5 = ':' ∧ a6 = 'Z' then
      match parse4 y1 y2 y3 y4, parse2 mo1 mo2, parse2 d1 d2, parse2 h1 h2,
          parse2 mi1 mi2, parse2 se1 se2 with
      | some y, some mo, some d, some h, some mi, some se =>
        if 1 ≤ mo ∧ mo ≤ 12 ∧ 1 ≤ d ∧ d ≤ daysInMonth y mo ∧ h ≤ 23 ∧
            mi ≤ 59 ∧ se ≤ 59 then
          some ⟨y, mo, d, h, mi, se⟩
        else none
      | _, _, _, _, _, _ => none
    else none
  | _ => none

/-- The fixed ledger marker `FETCHED_AT_PREFIX` (src/main.rs line 27). -/
def fetchedAtLabel : List Char := "Fetched at: ".toList

/-- The commit message built by `git_commit` (src/main.rs lines 320-325):
the human-readable message, a blank line, then the marker line holding the
current timestamp. -/
def gitCommitMessage (message : List Char) (now : DateTime) : List Char :=
  message ++ '\n' :: '\n' :: (fetchedAtLabel ++ formatSortable now)

/-- The scan loop of `get_last_known_timestamp` (src/main.rs lines
380-388): walk the lines of the most recent commit message last-line-first;
on a line starting with the marker, try to parse the rest as RFC3339 and
return it; lines that fail to parse are skipped; if no line yields a
timestamp, fail with `"Unknown timestamp"` (line 389). -/
def scanLines : List (List Char) → Except String DateTime
  | [] => .error "Unknown timestamp"
  | line :: rest =>
    if fetchedAtLabel.isPrefixOf line then
      match parseRfc3339 (line.drop fetchedAtLabel.length) with
      | some d => .ok d
      | none => scanLines rest
    else scanLines rest

/-- `get_last_known_timestamp` (src/main.rs lines 363-390) applied to the
most recent commit message (the output of `git log --format=%B -n1 HEAD`):
split on newlines, reverse, scan for the marker. -/
def getLastKnownTimestamp (commitMessage : List Char) : Except String DateTime :=
  scanLines (splitChar '\n' commitMessage).reverse

/-- One observable effect issued by the engine, in source order: git
invocations (src/main.rs lines 300-339), the filesystem and browser work of
`fetch_country_dir` (lines 392-418). -/
inductive GitOp where
  | gitRm : List (List Char) → GitOp
  | fetchPages : List Char → GitOp
  | fsRemoveDirAll : List (List Char) → GitOp
  | fsCreateDirAll : List (List Char) → GitOp
  | writePages : List (List Char) → GitOp
  | gitAdd : List (List Char) → GitOp
  | gitCommit : List Char → GitOp
  | gitPush : GitOp
deriving DecidableEq, Repr

/-- Recognizer for commit operations. -/
def GitOp.isCommit : GitOp → Bool
  | .gitCommit _ => true
  | _ => false

/-- Recognizer for push operations. -/
def GitOp.isPush : GitOp → Bool
  | .gitPush => true
  | _ => false

/-- `parse_summary` (src/main.rs lines 204-223): `None` summaries become
the literal `"[No summary]"`.  The XPath first-paragraph extraction from a
`Some` summary is performed by the external XML collaborator and is
modelled as the fragment text it yields. -/
def parseSummary (e : Entry) : List Char :=
  match e.summary with
  | some s => s
  | none => "[No summary]".toList

/-- `fetch_country_dir` (src/main.rs lines 392-418): fetch the unit's
pages through the browser session (external collaborator, modelled as a
successful `fetchPages` effect), derive the directory from the slug,
remove it if present (`remove_dir_all`, NotFound tolerated), recreate it
and write one file per page.  A slug validation failure aborts with the
`Bad path` error. -/
def fetchCountryDirOps (countriesRoot : List (List Char)) (c : Country) :
    Except String (List GitOp × List (List Char)) :=
  match c.dirName with
  | .error err => .error err
  | .ok dn =>
    let dir := pathJoin countriesRoot dn
    .ok ([.fetchPages c.url, .fsRemoveDirAll dir, .fsCreateDirAll dir,
      .writePages dir], dir)

/-- The body of the incremental loop of `poll_atom` (src/main.rs lines
131-150) for one entry: build the `Country` from the entry title and the
href of its HTML-typed link (the source `unwrap`s here; the missing-link
case is the would-be panic), stage a deletion of the unit's directory if
it exists, re-fetch the unit, stage it and commit it individually. -/
def pollEntryOps (countriesRoot : List (List Char))
    (existsDir : List (List Char) → Bool) (e : Entry) :
    Except String (List GitOp) :=
  match htmlEntryLink e with
  | none => .error "poll_atom: entry has no text/html link (unwrap panic)"
  | some url =>
    let c : Country := ⟨e.title, url⟩
    match c.dirName with
    | .error err => .error err
    | .ok dn =>
      let countryRoot := pathJoin countriesRoot dn
      let rmOps := if existsDir countryRoot then [GitOp.gitRm countryRoot] else []
      match fetchCountryDirOps countriesRoot c with
      | .error err => .error err
      | .ok (fOps, dir) =>
        .ok (rmOps ++ fOps ++
          [GitOp.gitAdd dir, GitOp.gitCommit (e.title ++ ": ".toList ++ parseSummary e)])

/-- The incremental loop of `poll_atom` over its new entries in order
(oldest first); the first failure aborts the run, as `?` does. -/
def pollEntriesOps (countriesRoot : List (List Char))
    (existsDir : List (List Char) → Bool) :
    List Entry → Except String (List GitOp)
  | [] => .ok []
  | e :: rest =>
    match pollEntryOps countriesRoot existsDir e with
    | .error err => .error err
    | .ok ops =>
      match pollEntriesOps countriesRoot existsDir rest with
      | .error err => .error err
      | .ok restOps => .ok (ops ++ restOps)

/-- The per-country loop of `fetch_all` (src/main.rs lines 237-240):
re-fetch every unit and stage it. -/
def fetchAllCountriesOps (countriesRoot : List (List Char)) :
    List Country → Except String (List GitOp)
  | [] => .ok []
  | c :: rest =>
    match fetchCountryDirOps countriesRoot c with
    | .error err => .error err
    | .ok (ops, dir) =>
      match fetchAllCountriesOps countriesRoot rest with
      | .error err => .error err
      | .ok restOps => .ok (ops ++ [GitOp.gitAdd dir] ++ restOps)

/-- `fetch_all` (src/main.rs lines 225-244): stage a deletion of the whole
content root if it exists, re-fetch every country of the externally
enumerated list, then one commit with the given reason and one push. -/
def fetchAllOps (countriesRoot : List (List Char))
    (existsDir : List (List Char) → Bool) (countryList : List Country)
    (reason : List Char) : Except String (List GitOp) :=
  let rmOps := if existsDir countriesRoot then [GitOp.gitRm countriesRoot] else []
  match fetchAllCountriesOps countriesRoot countryList with
  | .error err => .error err
  | .ok ops => .ok (rmOps ++ ops ++ [GitOp.gitCommit reason, GitOp.gitPush])

/-- The commit reason `poll_atom` passes to `fetch_all` (src/main.rs line
127). -/
def catchUpReason : List Char :=
  "Missed some updates as they happened, catching up".toList

/-- `poll_atom` (src/main.rs lines 111-153) as the trace of effects it
issues: nothing for no work; the full re-fetch for the catch-up branch;
otherwise the incremental loop followed by exactly one final push. -/
def pollAtomOps (countriesRoot : List (List Char))
    (existsDir : List (List Char) → Bool) (countryList : List Country)
    (feed : List Entry) (ts : Int) : Except String (List GitOp) :=
  match pollDecision feed ts with
  | .noWork => .ok []
  | .fullResync => fetchAllOps countriesRoot existsDir countryList catchUpReason
  | .incremental es =>
    match pollEntriesOps countriesRoot existsDir es with
    | .error err => .error err
    | .ok ops => .ok (ops ++ [GitOp.gitPush])

/-- `TitleAndContent` (src/main.rs lines 462-465). -/
structure TitleAndContent where
  title : List Char
  content : List Char
deriving DecidableEq

/-- A rendered sub-page as the webdriver collaborator exposes it to
`fetch_page`: the texts of the elements matching `.part-title` and the
texts of the elements matching `.govuk-govspeak`, both in document order.
`find_element` returns the first match and fails when there is none. -/
structure RenderedPage where
  partTitleTexts : List (List Char)
  govspeakTexts : List (List Char)
deriving DecidableEq

/-- `fetch_page` (src/main.rs lines 540-554): the title is the text of the
first element matching `.part-title`; the content is the text of the first
element matching `.govuk-govspeak` with a single trailing newline appended
by the source's format call; either selector matching nothing is an
error. -/
def fetchPage (p : RenderedPage) : Except String TitleAndContent :=
  match p.partTitleTexts with
  | [] => .error "Error getting title"
  | t :: _ =>
    match p.govspeakTexts with
    | [] => .error "Error getting text"
    | c :: _ => .ok ⟨t, c ++ ['\n']⟩

/-- Stated from the spec's words for comparison (spec §4.3): a page body
built as the concatenation, in document order and double-newline
separated, of all matching content blocks, plus a trailing single
newline. -/
def specBodyOfBlocks (blocks : List (List Char)) : List Char :=
  List.intercalate "\n\n".toList blocks ++ ['\n']

/-- Unfolding equation: splitting a list that starts with the separator. -/
theorem splitChar_cons_sep (sep : Char) (b : List Char) :
    splitChar sep (sep :: b) = [] :: splitChar sep b := by
  simp [splitChar]

/-- Unfolding equation: splitting a list that starts with a
non-separator, expressed against the (always cons) split of the tail. -/
theorem splitChar_cons_ne (sep c : Char) (b : List Char) (hc : ¬c = sep)
    (y : List Char) (ys : List (List Char)) (hs : splitChar sep b = y :: ys) :
    splitChar sep (c :: b) = (c :: y) :: ys := by
  simp [splitChar, if_neg hc, hs]

/-- The split of any character list is never empty (Rust `split` always
yields at least one chunk, so `.last().unwrap()` cannot panic). -/
theorem splitChar_ne_nil (sep : Char) (l : List Char) : splitChar sep l ≠ [] := by
  induction l with
  | nil => simp [splitChar]
  | cons c rest ih =>
    by_cases hc : c = sep
    · rw [hc, splitChar_cons_sep]
      simp
    · rcases hs : splitChar sep rest with _ | ⟨y, ys⟩
      · exact absurd hs ih
      · rw [splitChar_cons_ne sep c rest hc y ys hs]
        simp

/-- Splitting a chunk free of the separator yields that single chunk. -/
theorem splitChar_not_mem (sep : Char) (l : List Char) (h : sep ∉ l) :
    splitChar sep l = [l] := by
  induction l with
  | nil => rfl
  | cons c rest ih =>
    have hc : ¬c = sep := by
      intro hcs
      exact h (hcs ▸ List.mem_cons_self c rest)
    have hrest : sep ∉ rest := fun hm => h (List.mem_cons_of_mem _ hm)
    rw [splitChar_cons_ne sep c rest hc rest [] (ih hrest)]

/-- A list containing the separator splits into at least two chunks. -/
theorem two_le_splitChar_length (sep : Char) (a b : List Char) :
    2 ≤ (splitChar sep (a ++ sep :: b)).length := by
  induction a with
  | nil =>
    rw [List.nil_append, splitChar_cons_sep]
    have := List.length_pos.mpr (splitChar_ne_nil sep b)
    simp only [List.length_cons]
    omega
  | cons c rest ih =>
    by_cases hc : c = sep
    · rw [List.cons_append, hc, splitChar_cons_sep]
      have := List.length_pos.mpr (splitChar_ne_nil sep (rest ++ sep :: b))
      simp only [List.length_cons]
      omega
    · rcases hs : splitChar sep (rest ++ sep :: b) with _ | ⟨y, ys⟩
      · exact absurd hs (splitChar_ne_nil sep _)
      · rw [List.cons_append, splitChar_cons_ne sep c _ hc y ys hs]
        rw [hs] at ih
        simp only [List.length_cons] at ih ⊢
        omega

/-- The last chunk of a split is whatever follows the last separator. -/
theorem splitChar_getLast (sep : Char) (a m : List Char) (hm : sep ∉ m) :
    (splitChar sep (a ++ sep :: m)).getLast? = some m := by
  induction a with
  | nil =>
    rw [List.nil_append, splitChar_cons_sep, splitChar_not_mem sep m hm]
    rfl
  | cons c rest ih =>
    by_cases hc : c = sep
    · rw [List.cons_append, hc, splitChar_cons_sep]
      rcases hs : splitChar sep (rest ++ sep :: m) with _ | ⟨y, ys⟩
      · exact absurd hs (splitChar_ne_nil sep _)
      · rw [hs] at ih
        rw [List.getLast?_cons_cons]
        exact ih
    · rcases hs : splitChar sep (rest ++ sep :: m) with _ | ⟨y, ys⟩
      · exact absurd hs (splitChar_ne_nil sep _)
      · rw [List.cons_append, splitChar_cons_ne sep c _ hc y ys hs]
        have hlen := two_le_splitChar_length sep rest m
        rw [hs] at hlen ih
        rcases ys with _ | ⟨z, zs⟩
        · simp at hlen
        · rw [List.getLast?_cons_cons] at ih ⊢
          exact ih

/-- Appending a trailing separator appends one empty chunk to the split. -/
theorem splitChar_append_last (sep : Char) (l : List Char) :
    splitChar sep (l ++ [sep]) = splitChar sep l ++ [[]] := by
  induction l with
  | nil =>
    rw [List.nil_append, splitChar_cons_sep]
    rfl
  | cons c rest ih =>
    by_cases hc : c = sep
    · rw [List.cons_append, hc, splitChar_cons_sep, splitChar_cons_sep, ih]
      rfl
    · rcases hs : splitChar sep rest with _ | ⟨y, ys⟩
      · exact absurd hs (splitChar_ne_nil sep _)
      · have h1 : splitChar sep (rest ++ [sep]) = y :: (ys ++ [[]]) := by
          rw [ih, hs]
          rfl
        rw [List.cons_append, splitChar_cons_ne sep c (rest ++ [sep]) hc y (ys ++ [[]]) h1,
          splitChar_cons_ne sep c rest hc y ys hs]
        rfl

/-- C7: slug derivation takes the last `/`-separated segment of the unit's
source URL, and the filesystem-safety check rejects (returns an error for,
never sanitizes) the inputs `.` and `..` and any segment containing a
platform path separator, while accepting `france` and `hong-kong`
unchanged. -/
theorem dirName_validation (pre seg s : List Char) (hseg : '/' ∉ seg)
    (hsep : ∃ c ∈ s, isSeparator c = true) :
    lastSegment (pre ++ '/' :: seg) = seg ∧
    (∀ n : List Char, Country.dirName ⟨n, pre ++ '/' :: seg⟩ = validateSegment seg) ∧
    validateSegment ".".toList = .error "Bad path: ." ∧
    validateSegment "..".toList = .error "Bad path: .." ∧
    validateSegment s = .error ("Bad path: " ++ String.mk s) ∧
    validateSegment "france".toList = .ok "france".toList ∧
    validateSegment "hong-kong".toList = .ok "hong-kong".toList := by
  have hlast : lastSegment (pre ++ '/' :: seg) = seg := by
    unfold lastSegment
    rw [splitChar_getLast '/' pre seg hseg]
    rfl
  refine ⟨hlast, fun n => by unfold Country.dirName; rw [hlast], by rfl, by rfl, ?_, by rfl, by rfl⟩
  obtain ⟨c, hcs, hcsep⟩ := hsep
  have hc : c = '/' := by simpa [isSeparator] using hcsep
  subst hc
  have hdot : ¬(s = ".".toList ∨ s = "..".toList) := by
    rintro (rfl | rfl) <;> exact absurd hcs (by decide)
  have hany : s.any isSeparator = true := List.any_eq_true.mpr ⟨'/', hcs, hcsep⟩
  unfold validateSegment
  rw [if_neg hdot, if_pos hany]

/-- C7 witness: the theorem instantiated at a concrete URL, the concrete
separator-containing segment `a/b`, and the listed accept and reject
cases. -/
theorem dirName_validation_witness :
    lastSegment "https://www.gov.uk/foreign-travel-advice".toList = "foreign-travel-advice".toList ∧
    Country.dirName ⟨"France".toList, "https://www.gov.uk/france".toList⟩ = .ok "france".toList ∧
    validateSegment ".".toList = .error "Bad path: ." ∧
    validateSegment "..".toList = .error "Bad path: .." ∧
    validateSegment "a/b".toList = .error "Bad path: a/b" ∧
    validateSegment "hong-kong".toList = .ok "hong-kong".toList := by
  have h := dirName_validation "https://www.gov.uk".toList "foreign-travel-advice".toList
    "a/b".toList (by decide) ⟨'/', by decide, by decide⟩
  have h2 := dirName_validation "https://www.gov.uk".toList "france".toList
    "a/b".toList (by decide) ⟨'/', by decide, by decide⟩
  refine ⟨?_, ?_, h.2.2.1, h.2.2.2.1, ?_, h.2.2.2.2.2.2⟩
  · have h1 := h.1
    have : "https://www.gov.uk".toList ++ '/' :: "foreign-travel-advice".toList =
        "https://www.gov.uk/foreign-travel-advice".toList := by decide
    rw [this] at h1
    exact h1
  · have h1 := h2.2.1 "France".toList
    have he : "https://www.gov.uk".toList ++ '/' :: "france".toList =
        "https://www.gov.uk/france".toList := by decide
    rw [he] at h1
    rw [h1]
    rfl
  · have h1 := h.2.2.2.2.1
    rw [h1]
    rfl

/-- C10: a source URL ending in `/` (or the empty URL) has the empty
string as its last path segment; the empty segment passes the
filesystem-safety check, so `Country::dir_name` returns `Ok` of the empty
slug, and joining the empty slug onto the content root resolves to the
content root itself. -/
theorem dirName_empty_segment (url : List Char) (root : List (List Char))
    (n : List Char) (h : url = [] ∨ ∃ pre, url = pre ++ ['/']) :
    Country.dirName ⟨n, url⟩ = .ok [] ∧ pathJoin root [] = root := by
  constructor
  · have hlast : lastSegment url = [] := by
      rcases h with rfl | ⟨pre, rfl⟩
      · rfl
      · show lastSegment (pre ++ '/' :: []) = []
        unfold lastSegment
        rw [splitChar_getLast '/' pre [] (by simp)]
        rfl
    unfold Country.dirName
    rw [hlast]
    rfl
  · rfl

/-- C10 witness: a concrete trailing-slash URL is mapped to the empty
slug and the join leaves a concrete root unchanged. -/
theorem dirName_empty_segment_witness :
    Country.dirName ⟨"X".toList, "https://www.gov.uk/".toList⟩ = .ok [] ∧
    pathJoin ["countries".toList] [] = ["countries".toList] := by
  exact dirName_empty_segment "https://www.gov.uk/".toList ["countries".toList]
    "X".toList (Or.inr ⟨"https://www.gov.uk".toList, by decide⟩)

/-- C4: the retry executor invokes the action at most 3 times; the
recovery hook runs exactly once between a failed attempt and the next
attempt (so one fewer time than there are attempts, and never after the
final failure); an action failing twice and succeeding on the third
attempt yields that success after exactly 3 invocations; an action failing
three times yields the aggregate error listing exactly the three
underlying errors in attempt order. -/
theorem retry_budget {E V : Type} (f : Nat → Except E V) :
    (retry f).attempts ≤ 3 ∧
    (retry f).recoveries + 1 = (retry f).attempts ∧
    (∀ e1 e2 v, f 0 = .error e1 → f 1 = .error e2 → f 2 = .ok v →
      (retry f).result = .ok v ∧ (retry f).attempts = 3) ∧
    (∀ e1 e2 e3, f 0 = .error e1 → f 1 = .error e2 → f 2 = .error e3 →
      (retry f).result = .error [e1, e2, e3]) := by
  rcases h0 : f 0 with v0 | e0 <;> rcases h1 : f 1 with v1 | e1 <;>
    rcases h2 : f 2 with v2 | e2 <;>
    simp only [retry, h0, h1, h2] <;>
    refine ⟨by omega, by simp, ?_, ?_⟩ <;>
    intro x1 x2 x3 hx1 hx2 hx3 <;>
    simp_all

/-- C4 witness: the theorem applied to a concrete action that fails twice
then succeeds, and to a concrete action that fails three times. -/
theorem retry_budget_witness :
    (retry (fun n => if n = 0 then .error "a" else if n = 1 then .error "b" else .ok 7)).result = .ok 7 ∧
    (retry (fun n => if n = 0 then .error "a" else if n = 1 then .error "b" else .ok 7)).attempts = 3 ∧
    (retry (fun n => if n = 0 then .error "a" else if n = 1 then .error "b"
      else (.error "c" : Except String Nat))).result = .error ["a", "b", "c"] := by
  have h1 := (retry_budget (fun n => if n = 0 then .error "a" else if n = 1 then .error "b"
    else .ok 7)).2.2.1 "a" "b" 7 rfl rfl rfl
  have h2 := (retry_budget (fun n => if n = 0 then .error "a" else if n = 1 then .error "b"
    else (.error "c" : Except String Nat))).2.2.2 "a" "b" "c" rfl rfl rfl
  exact ⟨h1.1, h1.2, h2⟩

/-- Deduplicating a list with a repeated element strictly shrinks it. -/
theorem dedup_length_lt {α : Type} [DecidableEq α] (l : List α) (h : ¬l.Nodup) :
    l.dedup.length < l.length := by
  have hle := (List.dedup_sublist l).length_le
  rcases lt_or_eq_of_le hle with hlt | heq
  · exact hlt
  · exact absurd (((List.dedup_sublist l).eq_of_length heq) ▸ List.nodup_dedup l) h

/-- `filter_map` strictly shrinks a list containing an element that maps
to `None`. -/
theorem length_filterMap_lt {α β : Type} (f : α → Option β) (l : List α)
    (e : α) (he : e ∈ l) (hn : f e = none) :
    (l.filterMap f).length < l.length := by
  induction l with
  | nil => cases he
  | cons a t ih =>
    rcases List.mem_cons.mp he with rfl | ht
    · rw [List.filterMap_cons_none hn]
      have := List.length_filterMap_le f t
      simp only [List.length_cons]
      omega
    · cases hfa : f a with
      | none =>
        rw [List.filterMap_cons_none hfa]
        have := ih ht
        simp only [List.length_cons]
        omega
      | some b =>
        rw [List.filterMap_cons_some hfa]
        have := ih ht
        simp only [List.length_cons, List.length_cons]
        omega

/-- An entry list containing an entry with no HTML-typed link always
counts as having duplicates: the linkless entry contributes no URL, so the
URL set is strictly smaller than the entry list. -/
theorem hasDuplicates_of_none (es : List Entry) (e : Entry) (he : e ∈ es)
    (hn : htmlEntryLink e = none) : hasDuplicates es = true := by
  unfold hasDuplicates
  have h1 := length_filterMap_lt htmlEntryLink es e he hn
  have h2 := (List.dedup_sublist (es.filterMap htmlEntryLink)).length_le
  simp only [decide_eq_true_eq]
  omega

/-- An entry list containing two entries whose HTML-typed links share the
same href counts as having duplicates. -/
theorem hasDuplicates_of_pair (l1 l2 l3 : List Entry) (a b : Entry)
    (u : List Char) (ha : htmlEntryLink a = some u)
    (hb : htmlEntryLink b = some u) :
    hasDuplicates (l1 ++ a :: l2 ++ b :: l3) = true := by
  unfold hasDuplicates
  have hsub : List.Sublist [u, u] ((l1 ++ a :: l2 ++ b :: l3).filterMap htmlEntryLink) := by
    rw [List.filterMap_append, List.filterMap_cons_some hb, List.filterMap_append,
      List.filterMap_cons_some ha]
    have h1 : List.Sublist [u] (l1.filterMap htmlEntryLink ++ u :: l2.filterMap htmlEntryLink) :=
      List.singleton_sublist.mpr (List.mem_append.mpr (Or.inr (List.mem_cons_self u _)))
    have h2 : List.Sublist [u] (u :: l3.filterMap htmlEntryLink) :=
      List.singleton_sublist.mpr (List.mem_cons_self u _)
    exact h1.append h2
  have hnd : ¬((l1 ++ a :: l2 ++ b :: l3).filterMap htmlEntryLink).Nodup := by
    intro hnd
    have := hnd.sublist hsub
    simp at this
  have h1 := dedup_length_lt _ hnd
  have h2 := List.length_filterMap_le htmlEntryLink (l1 ++ a :: l2 ++ b :: l3)
  simp only [decide_eq_true_eq]
  omega

/-- C1 counterexample: for the empty feed, the filtered-new count (0)
equals the total feed length (0), yet `poll_atom` takes the no-work early
return (src/main.rs lines 118-120) and not the full re-fetch path. -/
theorem pollDecision_empty_feed_cex :
    (List.filter (fun e => decide ((0 : Int) < e.updated)) ([] : List Entry)).length =
      ([] : List Entry).length ∧
    pollDecision ([] : List Entry) 0 = Decision.noWork ∧
    Decision.noWork ≠ Decision.fullResync := by
  refine ⟨rfl, rfl, by decide⟩

/-- C1 (amended): for every NON-EMPTY fetched feed state in which the
number of entries with updatedAt strictly greater than the recovered
last-sync timestamp equals the total number of entries, the poll operation
takes the full re-fetch path rather than the incremental path; for the
empty feed the code takes the no-work early return instead. -/
theorem pollDecision_all_new (feed : List Entry) (ts : Int) (hne : feed ≠ [])
    (hall : (feed.filter (fun e => decide (ts < e.updated))).length = feed.length) :
    pollDecision feed ts = Decision.fullResync := by
  have hrev : (feed.reverse.filter (fun e => decide (ts < e.updated))).length = feed.length := by
    rw [List.filter_reverse, List.length_reverse, hall]
  have hpos : 0 < feed.length := List.length_pos.mpr hne
  simp only [pollDecision, getNewAtomEntries, hrev]
  rw [if_neg (by omega), if_pos (by simp)]

/-- C1 witness: a concrete one-entry feed whose single entry is newer
than the recovered timestamp is classified to the full re-fetch path. -/
theorem pollDecision_all_new_witness :
    ([⟨"Albania".toList, [], 5, none⟩] : List Entry) ≠ [] ∧
    pollDecision [⟨"Albania".toList, [], 5, none⟩] 0 = Decision.fullResync := by
  refine ⟨by simp, pollDecision_all_new _ 0 (by simp) (by decide)⟩

/-- C2: whenever the filtered entry set splits around two entries whose
HTML-typed links carry the same href, `has_duplicates` reports true and
`poll_atom` takes the full re-fetch path, regardless of the other entries
present.  The source attaches no per-branch reason string; both
full-resync triggers share the single catch-up commit message. -/
theorem pollDecision_duplicate_urls (feed : List Entry) (ts : Int)
    (l1 l2 l3 : List Entry) (a b : Entry) (u : List Char)
    (hsplit : (getNewAtomEntries feed ts).1 = l1 ++ a :: l2 ++ b :: l3)
    (ha : htmlEntryLink a = some u) (hb : htmlEntryLink b = some u) :
    hasDuplicates (getNewAtomEntries feed ts).1 = true ∧
    pollDecision feed ts = Decision.fullResync := by
  have hdup : hasDuplicates (getNewAtomEntries feed ts).1 = true := by
    rw [hsplit]
    exact hasDuplicates_of_pair l1 l2 l3 a b u ha hb
  refine ⟨hdup, ?_⟩
  have hlen : ¬(getNewAtomEntries feed ts).1.length = 0 := by
    rw [hsplit]
    simp
  simp only [pollDecision]
  rw [if_neg hlen, if_pos (by rw [hdup]; simp)]

/-- C2 witness: a concrete feed whose two new entries share one canonical
URL is classified to the full re-fetch path. -/
theorem pollDecision_duplicate_urls_witness :
    hasDuplicates (getNewAtomEntries
      [⟨"B".toList, [⟨"x/albania".toList, some htmlMime⟩], 30, none⟩,
       ⟨"A".toList, [⟨"x/albania".toList, some htmlMime⟩], 20, none⟩,
       ⟨"C".toList, [⟨"x/chad".toList, some htmlMime⟩], 5, none⟩] 10).1 = true ∧
    pollDecision
      [⟨"B".toList, [⟨"x/albania".toList, some htmlMime⟩], 30, none⟩,
       ⟨"A".toList, [⟨"x/albania".toList, some htmlMime⟩], 20, none⟩,
       ⟨"C".toList, [⟨"x/chad".toList, some htmlMime⟩], 5, none⟩] 10 = Decision.fullResync := by
  exact pollDecision_duplicate_urls _ 10 []
    [] [] ⟨"A".toList, [⟨"x/albania".toList, some htmlMime⟩], 20, none⟩
    ⟨"B".toList, [⟨"x/albania".toList, some htmlMime⟩], 30, none⟩
    "x/albania".toList (by decide) (by decide) (by decide)

/-- C3 counterexample: a one-entry feed with nothing new has a filtered
set with no duplicates that does not span the whole feed, yet `poll_atom`
takes the no-work early return (src/main.rs lines 118-120) instead of
returning the incremental classification. -/
theorem pollDecision_no_new_cex :
    (getNewAtomEntries [⟨"X".toList, [], 0, none⟩] 0).1 = [] ∧
    hasDuplicates ([] : List Entry) = false ∧
    (getNewAtomEntries [⟨"X".toList, [], 0, none⟩] 0).1.length ≠
      ([⟨"X".toList, [], 0, none⟩] : List Entry).length ∧
    pollDecision [⟨"X".toList, [], 0, none⟩] 0 = Decision.noWork ∧
    Decision.noWork ≠ Decision.incremental [] := by
  decide

/-- C3 (amended): for every feed whose filtered set is NON-EMPTY, has no
duplicate canonical URLs and does not span the whole feed, `poll_atom`
takes the incremental path with exactly the entries whose updatedAt is
strictly greater than the recovered timestamp, ordered as the reverse of
feed order (oldest-updated-first for a newest-first feed); when no entry
qualifies the code instead exits as no-work before any classification. -/
theorem pollDecision_incremental_order (feed : List Entry) (ts : Int)
    (hdup : hasDuplicates (getNewAtomEntries feed ts).1 = false)
    (hspan : (getNewAtomEntries feed ts).1.length ≠ feed.length)
    (hne : (getNewAtomEntries feed ts).1 ≠ []) :
    pollDecision feed ts =
      Decision.incremental ((feed.filter (fun e => decide (ts < e.updated))).reverse) := by
  have hrev : (getNewAtomEntries feed ts).1 =
      (feed.filter (fun e => decide (ts < e.updated))).reverse := by
    simp only [getNewAtomEntries]
    exact List.filter_reverse _ _
  have hlen : ¬(getNewAtomEntries feed ts).1.length = 0 := by
    intro h0
    exact hne (List.length_eq_zero.mp h0)
  have hbeq : (getNewAtomEntries feed ts).2 = false := by
    have : ¬feed.length = (getNewAtomEntries feed ts).1.length := fun h => hspan h.symm
    simp only [getNewAtomEntries] at this ⊢
    exact beq_eq_false_iff_ne.mpr this
  simp only [pollDecision]
  rw [if_neg hlen, if_neg (by rw [hbeq, hdup]; simp), hrev]

/-- C3 witness: a concrete feed with two newer entries (distinct URLs)
and one older entry is classified incremental with exactly the two newer
entries, oldest first. -/
theorem pollDecision_incremental_order_witness :
    pollDecision
      [⟨"B".toList, [⟨"x/belgium".toList, some htmlMime⟩], 30, none⟩,
       ⟨"A".toList, [⟨"x/albania".toList, some htmlMime⟩], 20, none⟩,
       ⟨"C".toList, [⟨"x/chad".toList, some htmlMime⟩], 5, none⟩] 10 =
      Decision.incremental
        [⟨"A".toList, [⟨"x/albania".toList, some htmlMime⟩], 20, none⟩,
         ⟨"B".toList, [⟨"x/belgium".toList, some htmlMime⟩], 30, none⟩] := by
  have h := pollDecision_incremental_order
    [⟨"B".toList, [⟨"x/belgium".toList, some htmlMime⟩], 30, none⟩,
     ⟨"A".toList, [⟨"x/albania".toList, some htmlMime⟩], 20, none⟩,
     ⟨"C".toList, [⟨"x/chad".toList, some htmlMime⟩], 5, none⟩] 10
    (by decide) (by decide) (by decide)
  rw [h]
  decide

/-- C9: in a filtered entry list containing an entry with no HTML-typed
link, `has_duplicates` returns true (the linkless entry is counted as a
collision), so `poll_atom` takes the full-resync path; consequently
whenever the incremental branch is reached every entry has an HTML-typed
link and the loop's unconditional `unwrap` (src/main.rs line 139) cannot
panic. -/
theorem poll_linkless_full_resync (feed : List Entry) (ts : Int) :
    (∀ es, pollDecision feed ts = Decision.incremental es →
      ∀ e ∈ es, (htmlEntryLink e).isSome = true) ∧
    (∀ e, e ∈ (getNewAtomEntries feed ts).1 → htmlEntryLink e = none →
      hasDuplicates (getNewAtomEntries feed ts).1 = true ∧
      pollDecision feed ts = Decision.fullResync) := by
  constructor
  · intro es hdec e he
    by_contra hnot
    have hnone : htmlEntryLink e = none := by
      cases h : htmlEntryLink e with
      | none => rfl
      | some u => rw [h] at hnot; simp at hnot
    simp only [pollDecision] at hdec
    by_cases h0 : (getNewAtomEntries feed ts).1.length = 0
    · rw [if_pos h0] at hdec
      cases hdec
    · rw [if_neg h0] at hdec
      by_cases hcond : ((getNewAtomEntries feed ts).2 ||
          hasDuplicates (getNewAtomEntries feed ts).1) = true
      · rw [if_pos hcond] at hdec
        cases hdec
      · rw [if_neg hcond] at hdec
        have hes : (getNewAtomEntries feed ts).1 = es := by
          cases hdec
          rfl
        rw [← hes] at he
        have hdup := hasDuplicates_of_none _ e he hnone
        rw [hdup] at hcond
        simp at hcond
  · intro e he hn
    have hdup := hasDuplicates_of_none _ e he hn
    refine ⟨hdup, ?_⟩
    have hlen : ¬(getNewAtomEntries feed ts).1.length = 0 := by
      intro h0
      rw [List.length_eq_zero.mp h0] at he
      cases he
    simp only [pollDecision]
    rw [if_neg hlen, if_pos (by rw [hdup]; simp)]

/-- C9 witness: a concrete feed whose single new entry has no HTML-typed
link is counted as a duplicate collision and classified to the full
re-fetch path. -/
theorem poll_linkless_full_resync_witness :
    hasDuplicates (getNewAtomEntries
      [⟨"N".toList, [], 25, none⟩, ⟨"Old".toList, [], 5, none⟩] 10).1 = true ∧
    pollDecision [⟨"N".toList, [], 25, none⟩, ⟨"Old".toList, [], 5, none⟩] 10 =
      Decision.fullResync := by
  exact (poll_linkless_full_resync
    [⟨"N".toList, [], 25, none⟩, ⟨"Old".toList, [], 5, none⟩] 10).2
    ⟨"N".toList, [], 25, none⟩ (by decide) (by decide)

/-- Parsing inverts rendering on single decimal digits. -/
theorem parseDigit_decDigit : ∀ k, k < 10 → parseDigit (decDigit k) = some k := by
  decide

/-- A rendered digit (or the fallback) is never a newline. -/
theorem decDigit_ne_newline (k : Nat) : decDigit k ≠ '\n' := by
  unfold decDigit
  split <;> decide

/-- Parsing inverts rendering on two-digit zero-padded fields. -/
theorem parse2_pad2 (n : Nat) (h : n < 100) :
    parse2 (decDigit (n / 10)) (decDigit (n % 10)) = some n := by
  have h1 := parseDigit_decDigit (n / 10) (by omega)
  have h2 := parseDigit_decDigit (n % 10) (by omega)
  simp only [parse2, h1, h2]
  congr 1
  omega

/-- Parsing inverts rendering on four-digit zero-padded fields. -/
theorem parse4_pad4 (n : Nat) (h : n < 10000) :
    parse4 (decDigit (n / 1000)) (decDigit (n / 100 % 10)) (decDigit (n / 10 % 10))
      (decDigit (n % 10)) = some n := by
  have h1 := parseDigit_decDigit (n / 1000) (by omega)
  have h2 := parseDigit_decDigit (n / 100 % 10) (by omega)
  have h3 := parseDigit_decDigit (n / 10 % 10) (by omega)
  have h4 := parseDigit_decDigit (n % 10) (by omega)
  simp only [parse4, h1, h2, h3, h4]
  congr 1
  omega

/-- No month is longer than 31 days. -/
theorem daysInMonth_le_31 (y m : Nat) : daysInMonth y m ≤ 31 := by
  unfold daysInMonth
  split
  · split <;> omega
  · split <;> omega

/-- The two-digit rendering contains no newline. -/
theorem newline_not_mem_pad2 (n : Nat) : '\n' ∉ pad2 n := by
  intro hmem
  rcases List.mem_cons.mp hmem with h | hmem
  · exact decDigit_ne_newline _ h.symm
  rcases List.mem_cons.mp hmem with h | hmem
  · exact decDigit_ne_newline _ h.symm
  cases hmem

/-- The four-digit rendering contains no newline. -/
theorem newline_not_mem_pad4 (n : Nat) : '\n' ∉ pad4 n := by
  intro hmem
  rcases List.mem_cons.mp hmem with h | hmem
  · exact decDigit_ne_newline _ h.symm
  rcases List.mem_cons.mp hmem with h | hmem
  · exact decDigit_ne_newline _ h.symm
  rcases List.mem_cons.mp hmem with h | hmem
  · exact decDigit_ne_newline _ h.symm
  rcases List.mem_cons.mp hmem with h | hmem
  · exact decDigit_ne_newline _ h.symm
  cases hmem

/-- The rendered timestamp contains no newline, so it stays on the marker
line of the commit message. -/
theorem newline_not_mem_formatSortable (t : DateTime) : '\n' ∉ formatSortable t := by
  intro hmem
  unfold formatSortable at hmem
  rcases List.mem_append.mp hmem with h | hmem
  · exact newline_not_mem_pad4 _ h
  rcases List.mem_cons.mp hmem with h | hmem
  · exact absurd h (by decide)
  rcases List.mem_append.mp hmem with h | hmem
  · exact newline_not_mem_pad2 _ h
  rcases List.mem_cons.mp hmem with h | hmem
  · exact absurd h (by decide)
  rcases List.mem_append.mp hmem with h | hmem
  · exact newline_not_mem_pad2 _ h
  rcases List.mem_cons.mp hmem with h | hmem
  · exact absurd h (by decide)
  rcases List.mem_append.mp hmem with h | hmem
  · exact newline_not_mem_pad2 _ h
  rcases List.mem_cons.mp hmem with h | hmem
  · exact absurd h (by decide)
  rcases List.mem_append.mp hmem with h | hmem
  · exact newline_not_mem_pad2 _ h
  rcases List.mem_cons.mp hmem with h | hmem
  · exact absurd h (by decide)
  rcases List.mem_append.mp hmem with h | hmem
  · exact newline_not_mem_pad2 _ h
  rcases List.mem_cons.mp hmem with h | hmem
  · exact absurd h (by decide)
  cases hmem

/-- Parsing inverts the engine's own timestamp rendering for every
chrono-representable timestamp. -/
theorem parseRfc3339_formatSortable (t : DateTime) (h : ValidDateTime t) :
    parseRfc3339 (formatSortable t) = some t := by
  obtain ⟨y, mo, d, hh, mi, se⟩ := t
  unfold ValidDateTime at h
  obtain ⟨hy, hmo1, hmo2, hd1, hd2, hhh, hmi1, hse1⟩ := h
  simp only at hy hmo1 hmo2 hd1 hd2 hhh hmi1 hse1
  have hd100 : d < 100 := by
    have := daysInMonth_le_31 y mo
    omega
  have hfmt : formatSortable ⟨y, mo, d, hh, mi, se⟩ =
      [decDigit (y / 1000), decDigit (y / 100 % 10), decDigit (y / 10 % 10),
        decDigit (y % 10), '-', decDigit (mo / 10), decDigit (mo % 10), '-',
        decDigit (d / 10), decDigit (d % 10), 'T', decDigit (hh / 10),
        decDigit (hh % 10), ':', decDigit (mi / 10), decDigit (mi % 10), ':',
        decDigit (se / 10), decDigit (se % 10), 'Z'] := by
    simp [formatSortable, pad4, pad2]
  rw [hfmt]
  have hcond : 1 ≤ mo ∧ mo ≤ 12 ∧ 1 ≤ d ∧ d ≤ daysInMonth y mo ∧ hh ≤ 23 ∧
      mi ≤ 59 ∧ se ≤ 59 := ⟨hmo1, hmo2, hd1, hd2, hhh, hmi1, hse1⟩
  simp [parseRfc3339, parse4_pad4 y (by omega), parse2_pad2 mo (by omega),
    parse2_pad2 d (by omega), parse2_pad2 hh (by omega), parse2_pad2 mi (by omega),
    parse2_pad2 se (by omega), hcond]

/-- A prefix check succeeds on the list it prefixes. -/
theorem isPrefixOf_append_self (p s : List Char) : p.isPrefixOf (p ++ s) = true := by
  induction p with
  | nil => cases s <;> rfl
  | cons c t ih => simp [List.isPrefixOf, ih]

/-- The marker scan fails when no line both starts with the marker and
parses. -/
theorem scanLines_error (ls : List (List Char))
    (h : ∀ l ∈ ls, fetchedAtLabel.isPrefixOf l = true →
      parseRfc3339 (l.drop fetchedAtLabel.length) = none) :
    scanLines ls = .error "Unknown timestamp" := by
  induction ls with
  | nil => rfl
  | cons line rest ih =>
    have hrest := fun l hl => h l (List.mem_cons_of_mem _ hl)
    simp only [scanLines]
    by_cases hp : fetchedAtLabel.isPrefixOf line = true
    · rw [if_pos hp, h line (List.mem_cons_self _ _) hp]
      exact ih hrest
    · rw [if_neg hp]
      exact ih hrest

/-- Recovery from a commit written by `git_commit` yields the written
timestamp, whatever the human-readable part of the message was. -/
theorem getLastKnownTimestamp_commit (msg : List Char) (t : DateTime)
    (h : ValidDateTime t) :
    getLastKnownTimestamp (gitCommitMessage msg t) = .ok t := by
  have hm : '\n' ∉ fetchedAtLabel ++ formatSortable t := by
    intro hmem
    rcases List.mem_append.mp hmem with h1 | h1
    · exact absurd h1 (by decide)
    · exact newline_not_mem_formatSortable t h1
  have hsplit : (splitChar '\n' (gitCommitMessage msg t)).getLast? =
      some (fetchedAtLabel ++ formatSortable t) := by
    have heq : gitCommitMessage msg t =
        (msg ++ ['\n']) ++ '\n' :: (fetchedAtLabel ++ formatSortable t) := by
      simp [gitCommitMessage]
    rw [heq]
    exact splitChar_getLast '\n' (msg ++ ['\n']) _ hm
  unfold getLastKnownTimestamp
  rcases hrev : (splitChar '\n' (gitCommitMessage msg t)).reverse with _ | ⟨hd, tl⟩
  · exact absurd (List.reverse_eq_nil_iff.mp hrev) (splitChar_ne_nil '\n' _)
  · have hhd : hd = fetchedAtLabel ++ formatSortable t := by
      have h1 : (splitChar '\n' (gitCommitMessage msg t)).reverse.head? =
          some (fetchedAtLabel ++ formatSortable t) := by
        rw [List.head?_reverse]
        exact hsplit
      rw [hrev] at h1
      simpa using h1
    rw [hhd]
    simp only [scanLines]
    rw [if_pos (isPrefixOf_append_self _ _), List.drop_left,
      parseRfc3339_formatSortable t h]

/-- Recovery also succeeds on the commit message with the trailing
newline that `git log` output carries. -/
theorem getLastKnownTimestamp_commit_nl (msg : List Char) (t : DateTime)
    (h : ValidDateTime t) :
    getLastKnownTimestamp (gitCommitMessage msg t ++ ['\n']) = .ok t := by
  unfold getLastKnownTimestamp
  rw [splitChar_append_last, List.reverse_append]
  simp only [List.reverse_cons, List.reverse_nil, List.nil_append]
  simp only [scanLines]
  rw [if_neg (by decide)]
  have h1 := getLastKnownTimestamp_commit msg t h
  unfold getLastKnownTimestamp at h1
  exact h1

/-- C5: ledger round-trip.  Committing with a message whose last
paragraph is the marker line (the fixed prefix followed by T in the fixed
sortable RFC3339 UTC format) and recovering from that same history by
scanning the most recent commit message's lines last-line-first yields
exactly T (with or without the trailing newline of git log output); and
when no line of the scanned history carries a parseable marker, recovery
fails with the `Unknown timestamp` error rather than a default
baseline. -/
theorem ledger_round_trip (msg : List Char) (t : DateTime) (h : ValidDateTime t) :
    getLastKnownTimestamp (gitCommitMessage msg t) = .ok t ∧
    getLastKnownTimestamp (gitCommitMessage msg t ++ ['\n']) = .ok t ∧
    (∀ history : List Char,
      (∀ l ∈ splitChar '\n' history, fetchedAtLabel.isPrefixOf l = true →
        parseRfc3339 (l.drop fetchedAtLabel.length) = none) →
      getLastKnownTimestamp history = .error "Unknown timestamp") := by
  refine ⟨getLastKnownTimestamp_commit msg t h,
    getLastKnownTimestamp_commit_nl msg t h, ?_⟩
  intro history hh
  unfold getLastKnownTimestamp
  refine scanLines_error _ ?_
  intro l hl
  exact hh l (List.mem_reverse.mp hl)

/-- C5 witness: the theorem applied to a concrete message and the
concrete leap-day timestamp 2020-02-29T23:59:58Z, and to a concrete
marker-free history. -/
theorem ledger_round_trip_witness :
    ValidDateTime ⟨2020, 2, 29, 23, 59, 58⟩ ∧
    getLastKnownTimestamp
      (gitCommitMessage "Albania: storm warning".toList ⟨2020, 2, 29, 23, 59, 58⟩) =
      .ok ⟨2020, 2, 29, 23, 59, 58⟩ ∧
    getLastKnownTimestamp "Initial import\nno marker here".toList =
      .error "Unknown timestamp" := by
  refine ⟨by decide,
    (ledger_round_trip "Albania: storm warning".toList ⟨2020, 2, 29, 23, 59, 58⟩ (by decide)).1,
    (ledger_round_trip "x".toList ⟨2020, 2, 29, 23, 59, 58⟩ (by decide)).2.2
      "Initial import\nno marker here".toList (by decide)⟩

/-- Each successful iteration of the incremental loop issues exactly one
commit and no push. -/
theorem pollEntryOps_counts (root : List (List Char))
    (ex : List (List Char) → Bool) (e : Entry) (ops : List GitOp)
    (h : pollEntryOps root ex e = .ok ops) :
    ops.countP GitOp.isCommit = 1 ∧ ops.countP GitOp.isPush = 0 := by
  unfold pollEntryOps at h
  rcases hL : htmlEntryLink e with _ | url
  · simp only [hL] at h
    exact Except.noConfusion h
  · simp only [hL] at h
    rcases hD : Country.dirName ⟨e.title, url⟩ with err | dn
    · simp only [hD] at h
      exact Except.noConfusion h
    · simp only [hD] at h
      unfold fetchCountryDirOps at h
      simp only [hD] at h
      rw [Except.ok.injEq] at h
      subst h
      by_cases hex : ex (pathJoin root dn) = true
      · simp [hex, List.countP_append, List.countP_cons, GitOp.isCommit, GitOp.isPush]
      · have hex2 : ex (pathJoin root dn) = false := by
          cases hval : ex (pathJoin root dn)
          · rfl
          · exact absurd hval hex
        simp [hex2, List.countP_append, List.countP_cons, GitOp.isCommit, GitOp.isPush]

/-- C6: on the incremental path with exactly two new entries carrying
distinct HTML-typed URLs, `poll_atom` processes the implicated units in
oldest-first order (each unit deleted then re-fetched, per the structure
of `pollEntryOps`), producing exactly two commits — one per entry — and
exactly one push, issued once at the very end of the run. -/
theorem poll_incremental_two_entries (root : List (List Char))
    (ex : List (List Char) → Bool) (countryList : List Country)
    (feed : List Entry) (ts : Int) (a b : Entry) (ua ub : List Char)
    (opsA opsB : List GitOp)
    (hnew : getNewAtomEntries feed ts = ([a, b], false))
    (ha : htmlEntryLink a = some ua) (hb : htmlEntryLink b = some ub)
    (hne : ua ≠ ub)
    (hA : pollEntryOps root ex a = .ok opsA)
    (hB : pollEntryOps root ex b = .ok opsB) :
    pollAtomOps root ex countryList feed ts = .ok (opsA ++ opsB ++ [GitOp.gitPush]) ∧
    (opsA ++ opsB ++ [GitOp.gitPush]).countP GitOp.isCommit = 2 ∧
    (opsA ++ opsB ++ [GitOp.gitPush]).countP GitOp.isPush = 1 ∧
    (opsA ++ opsB ++ [GitOp.gitPush]).getLast? = some GitOp.gitPush := by
  have hdup : hasDuplicates [a, b] = false := by
    unfold hasDuplicates
    have hfm : ([a, b] : List Entry).filterMap htmlEntryLink = [ua, ub] := by
      simp [List.filterMap_cons, ha, hb]
    rw [hfm, List.dedup_cons_of_not_mem (by simp [hne]),
      List.dedup_cons_of_not_mem (by simp)]
    simp
  have hdec : pollDecision feed ts = Decision.incremental [a, b] := by
    simp only [pollDecision, hnew]
    rw [if_neg (by simp), if_neg (by simp [hdup])]
  have htrace : pollAtomOps root ex countryList feed ts =
      .ok (opsA ++ opsB ++ [GitOp.gitPush]) := by
    unfold pollAtomOps
    rw [hdec]
    simp only [pollEntriesOps, hA, hB]
    simp [List.append_assoc]
  have hcA := pollEntryOps_counts root ex a opsA hA
  have hcB := pollEntryOps_counts root ex b opsB hB
  refine ⟨htrace, ?_, ?_, List.getLast?_concat _⟩
  · simp [List.countP_append, List.countP_cons, List.countP_nil, hcA.1, hcB.1, GitOp.isCommit]
  · simp [List.countP_append, List.countP_cons, List.countP_nil, hcA.2, hcB.2, GitOp.isPush]

/-- C6 witness: the theorem applied to a concrete three-entry feed (two
new entries with distinct URLs, one stale), yielding the concrete trace
with its two commits and single trailing push. -/
theorem poll_incremental_two_entries_witness :
    pollAtomOps [] (fun _ => false) []
      [⟨"Belgium".toList, [⟨"x/belgium".toList, some htmlMime⟩], 30, none⟩,
       ⟨"Albania".toList, [⟨"x/albania".toList, some htmlMime⟩], 20, none⟩,
       ⟨"Chad".toList, [⟨"x/chad".toList, some htmlMime⟩], 5, none⟩] 10 =
      .ok ([GitOp.fetchPages "x/albania".toList, .fsRemoveDirAll ["albania".toList],
            .fsCreateDirAll ["albania".toList], .writePages ["albania".toList],
            .gitAdd ["albania".toList], .gitCommit "Albania: [No summary]".toList] ++
           [GitOp.fetchPages "x/belgium".toList, .fsRemoveDirAll ["belgium".toList],
            .fsCreateDirAll ["belgium".toList], .writePages ["belgium".toList],
            .gitAdd ["belgium".toList], .gitCommit "Belgium: [No summary]".toList] ++
           [GitOp.gitPush]) := by
  exact (poll_incremental_two_entries [] (fun _ => false) []
    [⟨"Belgium".toList, [⟨"x/belgium".toList, some htmlMime⟩], 30, none⟩,
     ⟨"Albania".toList, [⟨"x/albania".toList, some htmlMime⟩], 20, none⟩,
     ⟨"Chad".toList, [⟨"x/chad".toList, some htmlMime⟩], 5, none⟩] 10
    ⟨"Albania".toList, [⟨"x/albania".toList, some htmlMime⟩], 20, none⟩
    ⟨"Belgium".toList, [⟨"x/belgium".toList, some htmlMime⟩], 30, none⟩
    "x/albania".toList "x/belgium".toList
    [GitOp.fetchPages "x/albania".toList, .fsRemoveDirAll ["albania".toList],
     .fsCreateDirAll ["albania".toList], .writePages ["albania".toList],
     .gitAdd ["albania".toList], .gitCommit "Albania: [No summary]".toList]
    [GitOp.fetchPages "x/belgium".toList, .fsRemoveDirAll ["belgium".toList],
     .fsCreateDirAll ["belgium".toList], .writePages ["belgium".toList],
     .gitAdd ["belgium".toList], .gitCommit "Belgium: [No summary]".toList]
    (by decide) (by decide) (by decide) (by decide) (by decide) (by decide)).1

/-- C8 counterexample: on a page with two matching content blocks, the
produced record's body is the first block's text plus a newline, not the
double-newline concatenation of all matching blocks that the spec
describes. -/
theorem fetchPage_first_block_cex :
    fetchPage ⟨["Summary".toList], ["Block one".toList, "Block two".toList]⟩ =
      .ok ⟨"Summary".toList, "Block one\n".toList⟩ ∧
    "Block one\n".toList ≠
      specBodyOfBlocks ["Block one".toList, "Block two".toList] := by
  exact ⟨rfl, by decide⟩

/-- C8 (amended): for every successfully fetched sub-page, the produced
record's body equals the text of the FIRST matching content block plus a
trailing single newline, and its title equals the text of the first
matching designated heading element (the single heading on well-formed
pages). -/
theorem fetchPage_first_block (p : RenderedPage) (t c : List Char)
    (ts cs : List (List Char)) (ht : p.partTitleTexts = t :: ts)
    (hc : p.govspeakTexts = c :: cs) :
    fetchPage p = .ok ⟨t, c ++ ['\n']⟩ := by
  unfold fetchPage
  rw [ht, hc]

/-- C8 witness: the amended theorem applied to a concrete single-heading,
single-block page. -/
theorem fetchPage_first_block_witness :
    fetchPage ⟨["Entry requirements".toList], ["Visas".toList]⟩ =
      .ok ⟨"Entry requirements".toList, "Visas\n".toList⟩ := by
  have h := fetchPage_first_block ⟨["Entry requirements".toList], ["Visas".toList]⟩
    "Entry requirements".toList "Visas".toList [] [] rfl rfl
  rw [h]
  decide
